import Mathlib

/-!
Verification of the abbreviation detection engine and of the
`DocumentsService.ingest_document` payload builder of the
`metal_utility_package` repository.

The abbreviation engine (`metal.pre_processing.abbreviation.Abbreviation`)
is exercised by `tests/pre_processing/test_abbreviation.py`; its module
source is not part of this tree, so the engine below is modelled from the
specification (sections 3, 4 and 7 of the design document).  Strings are
embedded as lists of characters; spans are zero-based character offsets
with an exclusive end.
-/

namespace Metal

/-- Modelled from the spec: the `Abbreviation` value of the data model,
an immutable pair of the detected text and its half-open character span
`[start, stop)` in the original input. -/
structure Abbreviation where
  text : List Char
  start : Nat
  stop : Nat

deriving instance DecidableEq, Repr for Abbreviation

/-- Modelled from the spec: a candidate token produced by the tokenizer:
a whitespace-free run of characters together with its exact bounds in the
source text. -/
structure Token where
  text : List Char
  start : Nat
  stop : Nat

deriving instance DecidableEq, Repr for Token

/-- Modelled from the spec: the tagged classification result of one
candidate token: a known abbreviation, an unknown (heuristic)
abbreviation, or not an abbreviation at all. -/
inductive Classified where
  | known (a : Abbreviation)
  | unknown (a : Abbreviation)
  | notAbbrev

deriving instance DecidableEq, Repr for Classified

/-- Modelled from the spec: the tokenizer's accumulator pass.  `i` is the
current absolute offset; the third argument is `none` between tokens and
`some (s, acc)` inside a token that started at offset `s`, with `acc`
holding the characters read so far in reverse. -/
def tokenizeAux : List Char → Nat → Option (Nat × List Char) → List Token
  | [], _, none => []
  | [], _, some (s, acc) => [⟨acc.reverse, s, s + acc.length⟩]
  | c :: cs, i, none =>
    if c.isWhitespace then tokenizeAux cs (i + 1) none
    else tokenizeAux cs (i + 1) (some (i, [c]))
  | c :: cs, i, some (s, acc) =>
    if c.isWhitespace then ⟨acc.reverse, s, i⟩ :: tokenizeAux cs (i + 1) none
    else tokenizeAux cs (i + 1) (some (s, c :: acc))

/-- Modelled from the spec: the tokenizer splits the input into maximal
whitespace-free runs, each carrying its exact character span, in
left-to-right order. -/
def tokenize (cs : List Char) : List Token :=
  tokenizeAux cs 0 none

/-- Modelled from the spec: the known-abbreviation dictionary, a fixed
set of canonical written forms (the spec's examples). -/
def dictionary : List (List Char) :=
  ["Prof.".data, "PhD".data, "Dr.".data, "Mr.".data, "etc.".data]

/-- Modelled from the spec: normalization used only for dictionary
matching: remove every period character. -/
def stripPeriods (cs : List Char) : List Char :=
  cs.filter (fun c => !(c == '.'))

/-- Modelled from the spec: period-insensitive, case-sensitive
whole-token dictionary lookup: the token with all periods removed is
compared against each entry with its periods likewise removed. -/
def dictMatch (cs : List Char) : Bool :=
  dictionary.any (fun e => stripPeriods e == stripPeriods cs)

/-- Modelled from the spec: the letters of a token: its alphabetic
characters in order, ignoring periods and other punctuation. -/
def letters (cs : List Char) : List Char :=
  cs.filter Char.isAlpha

/-- Whether a character list starts with an uppercase letter. -/
def headUpper (cs : List Char) : Bool :=
  match cs with
  | c :: _ => c.isUpper
  | [] => false

/-- Whether a character list ends with an uppercase letter. -/
def lastUpper (cs : List Char) : Bool :=
  match cs.getLast? with
  | some c => c.isUpper
  | none => false

/-- Modelled from the spec: the structural test for unknown
abbreviations: at least two letters, and the first and last letters are
both uppercase. -/
def structuralOk (cs : List Char) : Bool :=
  decide (2 ≤ (letters cs).length) && headUpper (letters cs) && lastUpper (letters cs)

/-- Modelled from the spec: whether a token ends in a period. -/
def endsInPeriod (cs : List Char) : Bool :=
  match cs.reverse with
  | c :: _ => c == '.'
  | [] => false

/-- Modelled from the spec: a token with all its trailing periods
removed. -/
def dropTrailingPeriods (cs : List Char) : List Char :=
  (cs.reverse.dropWhile (fun c => c == '.')).reverse

/-- Whether a token's first character is an uppercase letter. -/
def firstCharUpper (cs : List Char) : Bool :=
  match cs with
  | c :: _ => c.isUpper
  | [] => false

/-- Modelled from the spec: classification of one candidate token with
one-token lookahead.  The known check runs first on the unmodified token;
otherwise the structural heuristic applies, and a trailing period is
resolved using the first character of the next token: kept (collapsed to
a single period) at end of input or before a non-uppercase token, and
dropped before an uppercase token. -/
def classify (t : Token) (next : Option Token) : Classified :=
  if dictMatch t.text then
    .known ⟨t.text, t.start, t.stop⟩
  else if structuralOk t.text then
    if endsInPeriod t.text then
      match next with
      | none =>
        .unknown ⟨dropTrailingPeriods t.text ++ ['.'], t.start,
          t.start + (dropTrailingPeriods t.text).length + 1⟩
      | some u =>
        if firstCharUpper u.text then
          .unknown ⟨dropTrailingPeriods t.text, t.start,
            t.start + (dropTrailingPeriods t.text).length⟩
        else
          .unknown ⟨dropTrailingPeriods t.text ++ ['.'], t.start,
            t.start + (dropTrailingPeriods t.text).length + 1⟩
    else
      .unknown ⟨t.text, t.start, t.stop⟩
  else
    .notAbbrev

/-- Modelled from the spec: the classifier pass over the token sequence,
classifying each token with the next one (if any) as lookahead. -/
def classifyAll : List Token → List Classified
  | [] => []
  | t :: rest => classify t rest.head? :: classifyAll rest

/-- The known results of a classified sequence, in order. -/
def knownResults : List Classified → List Abbreviation
  | [] => []
  | .known a :: rest => a :: knownResults rest
  | .unknown _ :: rest => knownResults rest
  | .notAbbrev :: rest => knownResults rest

/-- The unknown results of a classified sequence, in order. -/
def unknownResults : List Classified → List Abbreviation
  | [] => []
  | .known _ :: rest => unknownResults rest
  | .unknown a :: rest => a :: unknownResults rest
  | .notAbbrev :: rest => unknownResults rest

/-- Modelled from the spec: the detection API `Abbreviation.from_text`:
tokenize, classify with lookahead, and partition the results into the
ordered known and unknown sequences. -/
def detect (cs : List Char) : List Abbreviation × List Abbreviation :=
  (knownResults (classifyAll (tokenize cs)), unknownResults (classifyAll (tokenize cs)))

/-! ### Structural invariants of the tokenizer -/

/-- A well-formed token of the input `all`: nonempty text, span of the
text's exact length, and text equal to the input slice at the span. -/
def TokGood (all : List Char) (t : Token) : Prop :=
  t.text ≠ [] ∧ t.stop = t.start + t.text.length ∧
    t.text = (all.drop t.start).take t.text.length

/-- The tokens are well formed, in ascending span order starting at or
after offset `i`, with no overlap. -/
def TokensOK (all : List Char) : Nat → List Token → Prop
  | _, [] => True
  | i, t :: ts => i ≤ t.start ∧ TokGood all t ∧ TokensOK all t.stop ts

theorem tokensOK_mono {all : List Char} {i j : Nat} {ts : List Token}
    (h : TokensOK all j ts) (hij : i ≤ j) : TokensOK all i ts := by
  cases ts with
  | nil => trivial
  | cons t ts => exact ⟨hij.trans h.1, h.2.1, h.2.2⟩

theorem tokenizeAux_ok (all : List Char) :
    ∀ (rest : List Char) (i : Nat), rest = all.drop i →
      TokensOK all i (tokenizeAux rest i none) ∧
      (∀ s acc, acc ≠ [] → s + acc.length = i →
        acc.reverse = (all.drop s).take acc.length →
        TokensOK all s (tokenizeAux rest i (some (s, acc)))) := by
  intro rest
  induction rest with
  | nil =>
    intro i _
    refine ⟨trivial, ?_⟩
    intro s acc hne hlen hacc
    show TokensOK all s [⟨acc.reverse, s, s + acc.length⟩]
    refine ⟨le_refl s, ⟨?_, ?_, ?_⟩, trivial⟩
    · simpa [List.reverse_eq_nil_iff] using hne
    · simp
    · simpa [List.length_reverse] using hacc
  | cons c cs ih =>
    intro i hres
    have htail : cs = all.drop (i + 1) := by
      rw [← List.tail_drop, ← hres]
      rfl
    have hget : all[i]? = some c := by
      have h0 : (all.drop i)[0]? = some c := by rw [← hres]; simp
      rwa [List.getElem?_drop] at h0
    constructor
    · cases hw : c.isWhitespace
      · simp only [tokenizeAux, hw, Bool.false_eq_true, if_false]
        exact (ih (i + 1) (by rw [htail])).2 i [c] (by simp) (by simp)
          (by rw [← hres]; rfl)
      · simp only [tokenizeAux, hw, if_true]
        exact tokensOK_mono ((ih (i + 1) (by rw [htail])).1) (Nat.le_succ i)
    · intro s acc hne hlen hacc
      cases hw : c.isWhitespace
      · simp only [tokenizeAux, hw, Bool.false_eq_true, if_false]
        refine (ih (i + 1) (by rw [htail])).2 s (c :: acc) (by simp) ?_ ?_
        · simp only [List.length_cons]; omega
        · have hstep : (all.drop s).take (acc.length + 1) =
              (all.drop s).take acc.length ++ [c] := by
            rw [List.take_succ, List.getElem?_drop, hlen, hget]
            rfl
          simp only [List.reverse_cons, hacc, List.length_cons, hstep]
      · simp only [tokenizeAux, hw, if_true]
        refine ⟨le_refl s, ⟨?_, ?_, ?_⟩, ?_⟩
        · simpa [List.reverse_eq_nil_iff] using hne
        · simp only [List.length_reverse]; omega
        · simpa [List.length_reverse] using hacc
        · exact tokensOK_mono ((ih (i + 1) (by rw [htail])).1) (Nat.le_succ i)

theorem tokenize_ok (cs : List Char) : TokensOK cs 0 (tokenize cs) :=
  (tokenizeAux_ok cs cs 0 (by simp)).1

/-! ### Structural facts about trailing-period handling -/

/-- The trailing run of periods of a token. -/
def trailPeriods (cs : List Char) : List Char :=
  (cs.reverse.takeWhile (fun c => c == '.')).reverse

theorem core_trail (cs : List Char) :
    dropTrailingPeriods cs ++ trailPeriods cs = cs := by
  have h := congrArg List.reverse
    (List.takeWhile_append_dropWhile (fun c => c == '.') cs.reverse)
  rw [List.reverse_append, List.reverse_reverse] at h
  exact h

theorem trail_all_periods {cs : List Char} {c : Char}
    (hc : c ∈ trailPeriods cs) : c = '.' := by
  rw [trailPeriods, List.mem_reverse] at hc
  simpa using List.mem_takeWhile_imp hc

theorem trail_ne_nil {cs : List Char} (h : endsInPeriod cs = true) :
    trailPeriods cs ≠ [] := by
  rw [trailPeriods]
  unfold endsInPeriod at h
  cases hr : cs.reverse with
  | nil => rw [hr] at h; simp at h
  | cons d rest =>
    rw [hr] at h
    have hd2 : (d == '.') = true := h
    simp only [hr, List.takeWhile_cons, hd2, if_true]
    simp

theorem core_ne_nil {cs : List Char} (h : structuralOk cs = true) :
    dropTrailingPeriods cs ≠ [] := by
  have hlen : 2 ≤ (letters cs).length := by
    have := (Bool.and_eq_true _ _).mp ((Bool.and_eq_true _ _).mp h).1
    exact of_decide_eq_true this.1
  have hl : letters cs ≠ [] := by
    intro hnil
    rw [hnil] at hlen
    simp at hlen
  obtain ⟨c, hc⟩ := List.exists_mem_of_ne_nil _ hl
  have hca : c.isAlpha := (List.mem_filter.mp hc).2
  have hcm : c ∈ cs := (List.mem_filter.mp hc).1
  intro hnil
  rw [dropTrailingPeriods, List.reverse_eq_nil_iff] at hnil
  have hall := List.dropWhile_eq_nil_iff.mp hnil
  have : (c == '.') = true := hall c (List.mem_reverse.mpr hcm)
  rw [beq_iff_eq] at this
  rw [this] at hca
  simp [Char.isAlpha, Char.isUpper, Char.isLower] at hca

theorem core_length_lt {cs : List Char} (h : endsInPeriod cs = true) :
    (dropTrailingPeriods cs).length < cs.length := by
  have hct := core_trail cs
  have hne := trail_ne_nil h
  have := congrArg List.length hct
  rw [List.length_append] at this
  have : 0 < (trailPeriods cs).length := List.length_pos.mpr hne
  omega

/-! ### The classifier respects token spans -/

/-- A well-formed returned abbreviation of input `all`: nonempty span and
text equal to the input slice at the span. -/
def AbbrOK (all : List Char) (a : Abbreviation) : Prop :=
  a.start < a.stop ∧ a.text = (all.drop a.start).take (a.stop - a.start)

theorem take_of_token {all : List Char} {t : Token} (ht : TokGood all t)
    {k : Nat} (hk : k ≤ t.text.length) :
    (all.drop t.start).take k = t.text.take k := by
  obtain ⟨_, _, htext⟩ := ht
  conv_rhs => rw [htext]
  rw [List.take_take, Nat.min_eq_left hk]

theorem take_core_succ {cs C : List Char} {d : Char} {rest : List Char}
    (hC : C ++ d :: rest = cs) (hd : d = '.') :
    cs.take (C.length + 1) = C ++ ['.'] := by
  rw [← hC, List.take_append 1, hd]
  rfl

theorem take_core {cs C tr : List Char} (hC : C ++ tr = cs) :
    cs.take C.length = C := by
  rw [← hC, List.take_left]

theorem classify_spec (all : List Char) (t : Token) (next : Option Token)
    (ht : TokGood all t) :
    classify t next = .notAbbrev ∨
    ∃ a, (classify t next = .known a ∨ classify t next = .unknown a) ∧
      a.start = t.start ∧ a.stop ≤ t.stop ∧ AbbrOK all a := by
  have hne := ht.1
  have hstop := ht.2.1
  have htext := ht.2.2
  have hlenpos : 0 < t.text.length := List.length_pos.mpr hne
  unfold classify
  by_cases hd : dictMatch t.text
  · rw [if_pos hd]
    refine Or.inr ⟨⟨t.text, t.start, t.stop⟩, Or.inl rfl, rfl, le_refl _, ?_, ?_⟩
    · simp only
      omega
    · simp only
      rw [hstop, Nat.add_sub_cancel_left, ← htext]
  · rw [if_neg hd]
    by_cases hs : structuralOk t.text
    · rw [if_pos hs]
      by_cases he : endsInPeriod t.text
      · rw [if_pos he]
        have hct := core_trail t.text
        have hclt := core_length_lt he
        have hcne := core_ne_nil hs
        have hcpos : 0 < (dropTrailingPeriods t.text).length :=
          List.length_pos.mpr hcne
        have htake1 : t.text.take ((dropTrailingPeriods t.text).length + 1) =
            dropTrailingPeriods t.text ++ ['.'] := by
          obtain ⟨d, rest, hdr⟩ :=
            List.exists_cons_of_ne_nil (trail_ne_nil he)
          have hd' : d = '.' := trail_all_periods
            (by rw [hdr]; exact List.mem_cons_self d rest)
          have hct' := hct
          rw [hdr] at hct'
          exact take_core_succ hct' hd'
        have hkeep : AbbrOK all
            ⟨dropTrailingPeriods t.text ++ ['.'], t.start,
              t.start + (dropTrailingPeriods t.text).length + 1⟩ := by
          refine ⟨by simp only; omega, ?_⟩
          simp only [Nat.add_assoc, Nat.add_sub_cancel_left]
          rw [take_of_token ht (by omega), htake1]
        have htrunc : AbbrOK all
            ⟨dropTrailingPeriods t.text, t.start,
              t.start + (dropTrailingPeriods t.text).length⟩ := by
          refine ⟨by simp only; omega, ?_⟩
          simp only [Nat.add_sub_cancel_left]
          rw [take_of_token ht (by omega)]
          exact (take_core hct).symm
        cases next with
        | none =>
          exact Or.inr ⟨_, Or.inr rfl, rfl, by simp only; omega, hkeep⟩
        | some u =>
          dsimp only
          by_cases hu : firstCharUpper u.text
          · rw [if_pos hu]
            exact Or.inr ⟨_, Or.inr rfl, rfl, by simp only; omega, htrunc⟩
          · rw [if_neg hu]
            exact Or.inr ⟨_, Or.inr rfl, rfl, by simp only; omega, hkeep⟩
      · rw [if_neg he]
        refine Or.inr ⟨⟨t.text, t.start, t.stop⟩, Or.inr rfl, rfl, le_refl _, ?_, ?_⟩
        · simp only
          omega
        · simp only
          rw [hstop, Nat.add_sub_cancel_left, ← htext]
    · rw [if_neg hs]
      exact Or.inl rfl

/-! ### Chains of emitted spans -/

/-- The abbreviation spans emitted by a classified sequence are well
formed and chained from offset `i`: each starts at or after the previous
one ended. -/
def ClsChain (all : List Char) : Nat → List Classified → Prop
  | _, [] => True
  | i, Classified.notAbbrev :: rest => ClsChain all i rest
  | i, Classified.known a :: rest =>
      i ≤ a.start ∧ AbbrOK all a ∧ ClsChain all a.stop rest
  | i, Classified.unknown a :: rest =>
      i ≤ a.start ∧ AbbrOK all a ∧ ClsChain all a.stop rest

theorem clsChain_mono {all : List Char} {i j : Nat} {rest : List Classified}
    (h : ClsChain all j rest) (hij : i ≤ j) : ClsChain all i rest := by
  induction rest with
  | nil => trivial
  | cons c rest ih =>
    cases c with
    | known a => exact ⟨hij.trans h.1, h.2.1, h.2.2⟩
    | unknown a => exact ⟨hij.trans h.1, h.2.1, h.2.2⟩
    | notAbbrev => exact ih h

theorem classifyAll_chain (all : List Char) :
    ∀ (toks : List Token) (i : Nat), TokensOK all i toks →
      ClsChain all i (classifyAll toks) := by
  intro toks
  induction toks with
  | nil => intro i _; trivial
  | cons t rest ih =>
    intro i h
    obtain ⟨hle, htg, hrest⟩ := h
    have hstartlt : t.start < t.stop := by
      have h1 := htg.2.1
      have h2 := List.length_pos.mpr htg.1
      omega
    show ClsChain all i (classify t rest.head? :: classifyAll rest)
    rcases classify_spec all t rest.head? htg with hnone | ⟨a, ha, hstart, hstople, hok⟩
    · rw [hnone]
      show ClsChain all i (classifyAll rest)
      exact clsChain_mono (ih t.stop hrest) (by omega)
    · rcases ha with hk | hu
      · rw [hk]
        exact ⟨by omega, hok, clsChain_mono (ih t.stop hrest) (by omega)⟩
      · rw [hu]
        exact ⟨by omega, hok, clsChain_mono (ih t.stop hrest) (by omega)⟩

/-- The returned abbreviations are well formed and chained from `i`. -/
def AbbrChain (all : List Char) : Nat → List Abbreviation → Prop
  | _, [] => True
  | i, a :: rest => i ≤ a.start ∧ AbbrOK all a ∧ AbbrChain all a.stop rest

theorem abbrChain_mono {all : List Char} {i j : Nat} {l : List Abbreviation}
    (h : AbbrChain all j l) (hij : i ≤ j) : AbbrChain all i l := by
  cases l with
  | nil => trivial
  | cons a l => exact ⟨hij.trans h.1, h.2.1, h.2.2⟩

theorem abbrChain_known {all : List Char} : ∀ {cls : List Classified} {i : Nat},
    ClsChain all i cls → AbbrChain all i (knownResults cls) := by
  intro cls
  induction cls with
  | nil => intro i _; trivial
  | cons c rest ih =>
    intro i h
    cases c with
    | known a => exact ⟨h.1, h.2.1, ih h.2.2⟩
    | unknown a =>
      exact abbrChain_mono (ih h.2.2) (le_trans h.1 (le_of_lt h.2.1.1))
    | notAbbrev => exact ih h

theorem abbrChain_unknown {all : List Char} : ∀ {cls : List Classified} {i : Nat},
    ClsChain all i cls → AbbrChain all i (unknownResults cls) := by
  intro cls
  induction cls with
  | nil => intro i _; trivial
  | cons c rest ih =>
    intro i h
    cases c with
    | unknown a => exact ⟨h.1, h.2.1, ih h.2.2⟩
    | known a =>
      exact abbrChain_mono (ih h.2.2) (le_trans h.1 (le_of_lt h.2.1.1))
    | notAbbrev => exact ih h

theorem abbrChain_mem {all : List Char} : ∀ {l : List Abbreviation} {i : Nat},
    AbbrChain all i l → ∀ a ∈ l, i ≤ a.start ∧ AbbrOK all a := by
  intro l
  induction l with
  | nil => intro i _ a ha; exact absurd ha (List.not_mem_nil a)
  | cons b l ih =>
    intro i h a ha
    rcases List.mem_cons.mp ha with rfl | ha'
    · exact ⟨h.1, h.2.1⟩
    · have hrec := ih h.2.2 a ha'
      have hblt : b.start < b.stop := h.2.1.1
      have hib : i ≤ b.start := h.1
      have hba : b.stop ≤ a.start := hrec.1
      exact ⟨by omega, hrec.2⟩

theorem abbrChain_pairwise {all : List Char} : ∀ {l : List Abbreviation} {i : Nat},
    AbbrChain all i l → l.Pairwise (fun a b => a.stop ≤ b.start) := by
  intro l
  induction l with
  | nil => intro i _; exact List.Pairwise.nil
  | cons a l ih =>
    intro i h
    refine List.Pairwise.cons ?_ (ih h.2.2)
    intro b hb
    exact (abbrChain_mem h.2.2 b hb).1

theorem cls_sep {all : List Char} : ∀ {cls : List Classified} {i : Nat},
    ClsChain all i cls →
    ∀ a ∈ knownResults cls, ∀ b ∈ unknownResults cls,
      a.stop ≤ b.start ∨ b.stop ≤ a.start := by
  intro cls
  induction cls with
  | nil =>
    intro i _ a ha
    exact absurd ha (List.not_mem_nil a)
  | cons c rest ih =>
    intro i h a ha b hb
    cases c with
    | known a0 =>
      simp only [knownResults] at ha
      simp only [unknownResults] at hb
      rcases List.mem_cons.mp ha with rfl | ha'
      · exact Or.inl (abbrChain_mem (abbrChain_unknown h.2.2) b hb).1
      · exact ih h.2.2 a ha' b hb
    | unknown b0 =>
      simp only [knownResults] at ha
      simp only [unknownResults] at hb
      rcases List.mem_cons.mp hb with rfl | hb'
      · exact Or.inr (abbrChain_mem (abbrChain_known h.2.2) a ha).1
      · exact ih h.2.2 a ha b hb'
    | notAbbrev =>
      simp only [knownResults] at ha
      simp only [unknownResults] at hb
      exact ih h a ha b hb

theorem detect_chain (cs : List Char) :
    AbbrChain cs 0 (detect cs).1 ∧ AbbrChain cs 0 (detect cs).2 ∧
      ∀ a ∈ (detect cs).1, ∀ b ∈ (detect cs).2,
        a.stop ≤ b.start ∨ b.stop ≤ a.start := by
  have h := classifyAll_chain cs (tokenize cs) 0 (tokenize_ok cs)
  exact ⟨abbrChain_known h, abbrChain_unknown h, cls_sep h⟩

/-! ### Auxiliary facts used by the claim theorems -/

theorem letters_stripPeriods (l : List Char) :
    letters (stripPeriods l) = letters l := by
  unfold letters stripPeriods
  induction l with
  | nil => rfl
  | cons c l ih =>
    by_cases hc : c = '.'
    · subst hc
      have h1 : ('.' : Char).isAlpha = false := by decide
      simp [List.filter_cons, h1, ih]
    · have hbeq : (c == '.') = false := by
        simpa using hc
      by_cases ha : c.isAlpha
      · simp [List.filter_cons, hbeq, ha, ih]
      · simp [List.filter_cons, hbeq, ha, ih]

theorem dict_entry_letters {e : List Char} (he : e ∈ dictionary) :
    2 ≤ (letters (stripPeriods e)).length := by
  fin_cases he <;> decide

theorem classifyAll_lookahead (toks : List Token) (i : Nat) :
    (classifyAll toks)[i]? =
      (toks[i]?).map fun t => classify t toks[i + 1]? := by
  induction toks generalizing i with
  | nil => simp [classifyAll]
  | cons t rest ih =>
    cases i with
    | zero =>
      simp [classifyAll, List.head?_eq_getElem?]
    | succ i =>
      simpa [classifyAll] using ih i

/-! ### The `DocumentsService.ingest_document` payload builder -/

/-- A JSON value of the request payload, to the extent the payload
builder distinguishes them. -/
inductive Val where
  | str (s : String)
  | int (n : Int)
  | dict (d : List (String × String))

deriving instance DecidableEq for Val

/-- The arguments of `DocumentsService.ingest_document`; `none` models a
Python `None`.  The field defaults mirror the Python defaults
(`meta=None`, `chunk_word_length=None`, `sent_overlap=1`). -/
structure IngestArgs where
  text : String
  client_id : String
  document_id : String
  name : String
  meta : Option (List (String × String)) := none
  chunk_word_length : Option Int := none
  sent_overlap : Option Int := some 1

deriving instance DecidableEq for IngestArgs

/-- The JSON payload assembled by `DocumentsService.ingest_document`, as
an ordered association list: the four mandatory keys, then `meta` guarded
by Python truthiness (`if meta:`), then `chunk_word_length` and
`sent_overlap` each guarded by `is not None`. -/
def ingest_document (a : IngestArgs) : List (String × Val) :=
  [("text", Val.str a.text), ("client_id", Val.str a.client_id),
    ("document_id", Val.str a.document_id), ("name", Val.str a.name)]
    ++ (match a.meta with
        | some d => if d.isEmpty then [] else [("meta", Val.dict d)]
        | none => [])
    ++ (match a.chunk_word_length with
        | some n => [("chunk_word_length", Val.int n)]
        | none => [])
    ++ (match a.sent_overlap with
        | some n => [("sent_overlap", Val.int n)]
        | none => [])

/-- The keys of a payload, in order. -/
def payloadKeys (l : List (String × Val)) : List String :=
  l.map Prod.fst

/-! ### The claims -/

/-- C1: on the input sentence of the main test, `detect` returns exactly
known = [("Prof.", 0, 5), ("Ph.D.", 17, 22)] and unknown =
[("OOP.", 65, 69)], in that order. -/
theorem claim_C1 :
    detect "Prof. John has a Ph.D. in computer science and is experienced in OOP.".data =
      ([⟨"Prof.".data, 0, 5⟩, ⟨"Ph.D.".data, 17, 22⟩],
        [⟨"OOP.".data, 65, 69⟩]) := by
  decide

/-- C2: trailing-period resolution with one-token lookahead: for a token
that fails the dictionary, passes the structural test and ends in one or
more periods, (1) with no next token the emitted span covers the core
plus exactly one trailing period; (2) with a next token starting
uppercase the span is truncated before the trailing periods; (3) with a
next token not starting uppercase the span again covers exactly one
trailing period.  Concretely: "blah blah ABC.." yields unknown
[("ABC.", 10, 14)], "blah ABC. Blah" yields [("ABC", 5, 8)] and
"blah ABC. blah" yields [("ABC.", 5, 9)]. -/
theorem claim_C2 :
    (∀ t : Token, dictMatch t.text = false → structuralOk t.text = true →
      endsInPeriod t.text = true →
      classify t none = Classified.unknown
        ⟨dropTrailingPeriods t.text ++ ['.'], t.start,
          t.start + (dropTrailingPeriods t.text).length + 1⟩ ∧
      (∀ u : Token, firstCharUpper u.text = true →
        classify t (some u) = Classified.unknown
          ⟨dropTrailingPeriods t.text, t.start,
            t.start + (dropTrailingPeriods t.text).length⟩) ∧
      (∀ u : Token, firstCharUpper u.text = false →
        classify t (some u) = Classified.unknown
          ⟨dropTrailingPeriods t.text ++ ['.'], t.start,
            t.start + (dropTrailingPeriods t.text).length + 1⟩)) ∧
    detect "blah blah ABC..".data = ([], [⟨"ABC.".data, 10, 14⟩]) ∧
    detect "blah ABC. Blah".data = ([], [⟨"ABC".data, 5, 8⟩]) ∧
    detect "blah ABC. blah".data = ([], [⟨"ABC.".data, 5, 9⟩]) := by
  refine ⟨?_, by decide, by decide, by decide⟩
  intro t hd hs he
  refine ⟨?_, fun u hu => ?_, fun u hu => ?_⟩
  · simp [classify, hd, hs, he]
  · simp [classify, hd, hs, he, hu]
  · simp [classify, hd, hs, he, hu]

/-- Witness for C2 at the final token of "blah blah ABC..": the core
"ABC" keeps exactly one trailing period. -/
theorem claim_C2_witness :
    classify ⟨"ABC..".data, 10, 15⟩ none =
      Classified.unknown ⟨"ABC.".data, 10, 14⟩ := by
  have h := (claim_C2.1 ⟨"ABC..".data, 10, 15⟩ (by decide) (by decide)
    (by decide)).1
  rw [h]
  decide

/-- C3: the unknown-abbreviation structural test holds iff the token has
at least two letters and its first and last letters are both uppercase;
"ABC" and "AbC" before " blah blah" are each the single unknown result,
"aBC", "ABc" and "abc" yield none, and a token glued to adjacent text
without whitespace ("blah.ABC", "ABC.Blah") is never returned. -/
theorem claim_C3 :
    (∀ cs : List Char, structuralOk cs = true ↔
      2 ≤ (letters cs).length ∧ headUpper (letters cs) = true ∧
        lastUpper (letters cs) = true) ∧
    detect "ABC blah blah".data = ([], [⟨"ABC".data, 0, 3⟩]) ∧
    detect "AbC blah blah".data = ([], [⟨"AbC".data, 0, 3⟩]) ∧
    detect "aBC blah blah".data = ([], []) ∧
    detect "ABc blah blah".data = ([], []) ∧
    detect "abc blah blah".data = ([], []) ∧
    detect "blah.ABC blah.".data = ([], []) ∧
    detect "blah ABC.Blah".data = ([], []) := by
  refine ⟨?_, by decide, by decide, by decide, by decide, by decide,
    by decide, by decide⟩
  intro cs
  simp [structuralOk, Bool.and_eq_true, decide_eq_true_eq, and_assoc]

/-- C4: dictionary matching is period-insensitive and whole-token: a
token matches iff, with every period removed, it equals some dictionary
entry with its periods removed; "Ph.D.", "PhD.", "PhD" scanned alone are
each the single known result with full span, and a dictionary hit takes
precedence over the unknown heuristic. -/
theorem claim_C4 :
    (∀ t : List Char, dictMatch t = true ↔
      ∃ e ∈ dictionary, stripPeriods t = stripPeriods e) ∧
    (∀ (t : Token) (next : Option Token) (a : Abbreviation),
      dictMatch t.text = true → classify t next ≠ Classified.unknown a) ∧
    detect "Ph.D.".data = ([⟨"Ph.D.".data, 0, 5⟩], []) ∧
    detect "PhD.".data = ([⟨"PhD.".data, 0, 4⟩], []) ∧
    detect "PhD".data = ([⟨"PhD".data, 0, 3⟩], []) := by
  refine ⟨?_, ?_, by decide, by decide, by decide⟩
  · intro t
    rw [dictMatch, List.any_eq_true]
    constructor
    · rintro ⟨e, he, heq⟩
      exact ⟨e, he, (beq_iff_eq.mp heq).symm⟩
    · rintro ⟨e, he, heq⟩
      exact ⟨e, he, beq_iff_eq.mpr heq.symm⟩
  · intro t next a hd
    simp [classify, hd]

/-- Witness for C4's precedence conjunct: the token "PhD" is never
emitted as unknown. -/
theorem claim_C4_witness :
    classify ⟨"PhD".data, 0, 3⟩ none ≠
      Classified.unknown ⟨"PhD".data, 0, 3⟩ :=
  claim_C4.2.1 ⟨"PhD".data, 0, 3⟩ none ⟨"PhD".data, 0, 3⟩ (by decide)

/-- C5: for every input, the known and unknown sequences are disjoint,
each is sorted by strictly ascending start offset, and no two returned
spans, within a sequence or across the two, overlap. -/
theorem claim_C5 (cs : List Char) :
    ((detect cs).1.Pairwise fun a b => a.start < b.start) ∧
    ((detect cs).2.Pairwise fun a b => a.start < b.start) ∧
    ((detect cs).1.Pairwise fun a b => a.stop ≤ b.start) ∧
    ((detect cs).2.Pairwise fun a b => a.stop ≤ b.start) ∧
    (∀ a ∈ (detect cs).1, ∀ b ∈ (detect cs).2,
      a.stop ≤ b.start ∨ b.stop ≤ a.start) ∧
    (∀ a, a ∈ (detect cs).1 → a ∈ (detect cs).2 → False) := by
  obtain ⟨hk, hu, hsep⟩ := detect_chain cs
  have hpk := abbrChain_pairwise hk
  have hpu := abbrChain_pairwise hu
  refine ⟨?_, ?_, hpk, hpu, hsep, ?_⟩
  · refine hpk.imp_of_mem ?_
    intro a b ha hb hab
    have h1 : a.start < a.stop := (abbrChain_mem hk a ha).2.1
    omega
  · refine hpu.imp_of_mem ?_
    intro a b ha hb hab
    have h1 : a.start < a.stop := (abbrChain_mem hu a ha).2.1
    omega
  · intro a ha hu'
    have h1 : a.start < a.stop := (abbrChain_mem hk a ha).2.1
    rcases hsep a ha a hu' with h | h <;> omega

/-- Witness for C5 on "Prof. OOP. blah": the known span (0,5) and the
unknown span (6,10) do not overlap. -/
theorem claim_C5_witness :
    (⟨"Prof.".data, 0, 5⟩ : Abbreviation).stop ≤
        (⟨"OOP.".data, 6, 10⟩ : Abbreviation).start ∨
      (⟨"OOP.".data, 6, 10⟩ : Abbreviation).stop ≤
        (⟨"Prof.".data, 0, 5⟩ : Abbreviation).start :=
  (claim_C5 "Prof. OOP. blah".data).2.2.2.2.1
    ⟨"Prof.".data, 0, 5⟩ (by decide) ⟨"OOP.".data, 6, 10⟩ (by decide)

/-- C6: every abbreviation returned by `detect` (known or unknown) has a
nonempty zero-based, end-exclusive character span and its text equals
the input slice at that span exactly; no normalized text is emitted. -/
theorem claim_C6 (cs : List Char) (a : Abbreviation)
    (h : a ∈ (detect cs).1 ∨ a ∈ (detect cs).2) :
    a.start < a.stop ∧ a.text = (cs.drop a.start).take (a.stop - a.start) := by
  obtain ⟨hk, hu, _⟩ := detect_chain cs
  rcases h with h | h
  · exact (abbrChain_mem hk a h).2
  · exact (abbrChain_mem hu a h).2

/-- Witness for C6: the known result on input "PhD" is the exact input
slice. -/
theorem claim_C6_witness :
    (0 : Nat) < 3 ∧ "PhD".data = ("PhD".data.drop 0).take (3 - 0) :=
  claim_C6 "PhD".data ⟨"PhD".data, 0, 3⟩ (Or.inl (by decide))

/-- C7: `detect` is total by construction; the empty input returns two
empty sequences, and a token with fewer than two letters is always
classified as not an abbreviation. -/
theorem claim_C7 :
    detect "".data = ([], []) ∧
    (∀ (t : Token) (next : Option Token), (letters t.text).length < 2 →
      classify t next = Classified.notAbbrev) := by
  refine ⟨by decide, ?_⟩
  intro t next hlt
  have hs : structuralOk t.text = false := by
    unfold structuralOk
    have hdec : decide (2 ≤ (letters t.text).length) = false := by
      simp only [decide_eq_false_iff_not]
      omega
    simp [hdec]
  have hd : dictMatch t.text = false := by
    by_contra hdm
    rw [Bool.not_eq_false, dictMatch, List.any_eq_true] at hdm
    obtain ⟨e, he, heq⟩ := hdm
    have heq' : stripPeriods e = stripPeriods t.text := beq_iff_eq.mp heq
    have h2 := dict_entry_letters he
    rw [heq', letters_stripPeriods] at h2
    omega
  simp [classify, hd, hs]

/-- Witness for C7: the single-letter token "x." is classified as not an
abbreviation. -/
theorem claim_C7_witness :
    detect "".data = ([], []) ∧
      classify ⟨"x.".data, 0, 2⟩ none = Classified.notAbbrev :=
  ⟨claim_C7.1, claim_C7.2 ⟨"x.".data, 0, 2⟩ none (by decide)⟩

/-- C8: `detect` is a deterministic pure function of the input text and
the static dictionary: two invocations on the same input are equal by
value, and the classification at position i depends on no token beyond
position i + 1. -/
theorem claim_C8 :
    (∀ cs : List Char, detect cs = detect cs) ∧
    (∀ (toks : List Token) (i : Nat),
      (classifyAll toks)[i]? =
        (toks[i]?).map fun t => classify t toks[i + 1]?) :=
  ⟨fun _ => rfl, classifyAll_lookahead⟩

/-- C9: internal periods never disqualify nor are stripped from an
unknown abbreviation: before a lowercase next token, every
periods-between-letters variant of "ABC" is returned verbatim with its
full token span; only trailing periods undergo lookahead resolution. -/
theorem claim_C9 :
    detect "blah A.B.C. blah".data = ([], [⟨"A.B.C.".data, 5, 11⟩]) ∧
    detect "blah AB.C. blah".data = ([], [⟨"AB.C.".data, 5, 10⟩]) ∧
    detect "blah A.BC. blah".data = ([], [⟨"A.BC.".data, 5, 10⟩]) ∧
    detect "blah A.B.C blah".data = ([], [⟨"A.B.C".data, 5, 10⟩]) ∧
    detect "blah ABC. blah".data = ([], [⟨"ABC.".data, 5, 9⟩]) ∧
    detect "blah AB.C blah".data = ([], [⟨"AB.C".data, 5, 9⟩]) ∧
    detect "blah A.BC blah".data = ([], [⟨"A.BC".data, 5, 9⟩]) ∧
    detect "blah ABC blah".data = ([], [⟨"ABC".data, 5, 8⟩]) := by
  refine ⟨by decide, by decide, by decide, by decide, by decide, by decide,
    by decide, by decide⟩

/-- C10: the ingest_document payload always carries "text", "client_id",
"document_id" and "name"; it carries "chunk_word_length" and
"sent_overlap" iff the corresponding argument is not None (so
sent_overlap = 0 is sent); but "meta" is present only when the meta
argument is truthy, so an explicit empty dict is silently omitted. -/
theorem claim_C10 (a : IngestArgs) :
    "text" ∈ payloadKeys (ingest_document a) ∧
    "client_id" ∈ payloadKeys (ingest_document a) ∧
    "document_id" ∈ payloadKeys (ingest_document a) ∧
    "name" ∈ payloadKeys (ingest_document a) ∧
    ("chunk_word_length" ∈ payloadKeys (ingest_document a) ↔
      a.chunk_word_length ≠ none) ∧
    ("sent_overlap" ∈ payloadKeys (ingest_document a) ↔
      a.sent_overlap ≠ none) ∧
    ("meta" ∈ payloadKeys (ingest_document a) ↔
      ∃ d, a.meta = some d ∧ d ≠ []) ∧
    (a.meta = some [] → "meta" ∉ payloadKeys (ingest_document a)) := by
  obtain ⟨t, c, di, n, m, cw, so⟩ := a
  cases m with
  | none =>
    cases cw <;> cases so <;>
      simp [ingest_document, payloadKeys]
  | some d =>
    by_cases hd : d.isEmpty
    · have hdn : d = [] := List.isEmpty_iff.mp hd
      subst hdn
      cases cw <;> cases so <;>
        simp [ingest_document, payloadKeys, hd]
    · have hdn : d ≠ [] := fun h => hd (by simp [h])
      cases cw <;> cases so <;>
        simp [ingest_document, payloadKeys, hd, hdn]

/-- Witness for C10 with meta an explicit empty dict and sent_overlap 0:
"meta" is omitted while "sent_overlap" is present. -/
theorem claim_C10_witness :
    "sent_overlap" ∈ payloadKeys (ingest_document
        ⟨"T", "C", "D", "N", some [], none, some 0⟩) ∧
      "meta" ∉ payloadKeys (ingest_document
        ⟨"T", "C", "D", "N", some [], none, some 0⟩) :=
  ⟨(claim_C10 ⟨"T", "C", "D", "N", some [], none, some 0⟩).2.2.2.2.2.1.mpr
      (by simp),
    (claim_C10 ⟨"T", "C", "D", "N", some [], none, some 0⟩).2.2.2.2.2.2.2 rfl⟩

end Metal
